import Mathlib

/-!
Verification of the configuration-string parser and session defaults of the
measuring_instr frequency-counter API (src/driver/gencounter.py).

The embedding models Python strings as lists of characters, the Python
dictionary built by parseConfig as an insertion-ordered association list with
update-in-place assignment (CPython semantics), and the exceptions the method
body can raise (IndexError from indexing an empty string, ValueError from
unpacking a split of length other than two) as an explicit error type.
-/

namespace Gencounter

/-- A Python string, modelled as its list of characters. -/
abbrev PyStr := List Char

/-- Coerce a Lean string literal to the character-list model. -/
def pystr (s : String) : PyStr := s.data

/-- The supported interfaces enumeration from gencounter.py. -/
inductive Interfaces
  | usb
  | usb_acm
  | vxi11
deriving DecidableEq

/-- Numeric values of the Interfaces enumeration members. -/
def Interfaces.value : Interfaces → Nat
  | .usb => 0
  | .usb_acm => 1
  | .vxi11 => 2

/-- The exceptions the body of parseConfig can raise: IndexError from
evaluating s[0] on an empty token, ValueError from unpacking the result of
s.split when it does not have exactly two elements. -/
inductive PyErr
  | indexError
  | valueError
deriving DecidableEq

/-- Python str.split with an explicit one-character separator: splits at every
occurrence of the separator and keeps empty fragments, so the result of
splitting the empty string is a list holding one empty string. -/
def pySplitSep (sep : Char) : PyStr → List PyStr
  | [] => [[]]
  | c :: rest =>
    if c = sep then
      [] :: pySplitSep sep rest
    else
      match pySplitSep sep rest with
      | [] => [[c]]
      | t :: ts => (c :: t) :: ts

/-- Python str.strip with no argument: removes leading and trailing
whitespace. -/
def pyStrip (s : PyStr) : PyStr :=
  ((s.dropWhile Char.isWhitespace).reverse.dropWhile Char.isWhitespace).reverse

/-- A Python dict with string keys and values, modelled as an
insertion-ordered association list whose keys are unique. -/
abbrev PyDict := List (PyStr × PyStr)

/-- Python dict assignment d[k] = v: if the key is present, its value is
updated in place; otherwise the pair is appended at the end. -/
def dictSet (d : PyDict) (k v : PyStr) : PyDict :=
  if d.any (fun p => p.1 == k) then
    d.map (fun p => if p.1 == k then (p.1, v) else p)
  else
    d ++ [(k, v)]

/-- Python dict lookup, returning none when the key is absent. -/
def dictGet (d : PyDict) (k : PyStr) : Option PyStr :=
  (d.find? (fun p => p.1 == k)).map Prod.snd

/-- The keys of a dict, in insertion order. -/
def dictKeys (d : PyDict) : List PyStr := d.map Prod.fst

/-- Python dict equality: the two dicts hold exactly the same key-value
pairs, insertion order irrelevant. -/
def dictEquiv (d₁ d₂ : PyDict) : Prop :=
  (∀ p ∈ d₁, dictGet d₂ p.1 = some p.2) ∧ (∀ p ∈ d₂, dictGet d₁ p.1 = some p.2)

/-- The value parseConfig returns: the empty string when the input is None
(the code returns the string literal, not a dict), otherwise the dict built
by the parsing loop. -/
inductive ParseResult
  | str (s : PyStr)
  | dict (d : PyDict)
deriving DecidableEq

/-- The loop body of parseConfig, iterating over the fragments produced by
cfgstr.split with a space separator:
for each fragment s, evaluating s[0] raises IndexError when s is empty;
the iteration is skipped when s[0] is a space; otherwise s.split with a
colon separator is unpacked into key and value, raising ValueError unless
it has exactly two elements, and the pair is assigned into the dict. -/
def parseLoop : List PyStr → PyDict → Except PyErr PyDict
  | [], cfgdict => .ok cfgdict
  | s :: rest, cfgdict =>
    match s with
    | [] => .error .indexError
    | c :: _ =>
      if c = ' ' then
        parseLoop rest cfgdict
      else
        match pySplitSep ':' s with
        | [key, val] => parseLoop rest (dictSet cfgdict key val)
        | _ => .error .valueError

/-- GenCounter.parseConfig from gencounter.py: when cfgstr is None it logs a
warning and returns the empty string; otherwise it strips the string, splits
it on spaces and runs the loop starting from an empty dict. -/
def parseConfig : Option PyStr → Except PyErr ParseResult
  | none => .ok (.str [])
  | some cfgstr =>
    (parseLoop (pySplitSep ' ' (pyStrip cfgstr)) []).map ParseResult.dict

/-- Whether the call to parseConfig emits the non-fatal warning diagnostic:
exactly when the input is None. -/
def parseConfigWarns : Option PyStr → Bool
  | none => true
  | some _ => false

/-- The GenCounter session state: the class attributes of GenCounter in
gencounter.py together with their default values. The interval 1e3 is the
float value one thousand, represented exactly as a rational. -/
structure GenCounter where
  _nChannels : Nat := 2
  _samples : Nat := 1
  _interval : Rat := 1000
  _dbg : Bool := false
  _drv : Option PyStr := none
  _port : Option PyStr := none
  _conn : Option Interfaces := none
  _trigcfg : Option PyStr := none
deriving DecidableEq

/-- A freshly constructed session: the abstract constructor has no body, so
every attribute keeps its class-level default. -/
def GenCounter.new : GenCounter := {}

/-- parseConfig as a method on the session state: the body of the Python
method never reads or writes any attribute of self, so the state is passed
through unchanged and the result is a function of the argument alone. -/
def GenCounter.parseConfigM (self : GenCounter) (cfgstr : Option PyStr) :
    GenCounter × Except PyErr ParseResult :=
  (self, parseConfig cfgstr)

/-- A well-formed token: nonempty and free of whitespace. -/
def goodTok (t : PyStr) : Prop := t ≠ [] ∧ ∀ c ∈ t, ¬ c.isWhitespace

/-- A clean key or value: free of colons and of whitespace. -/
def clean (s : PyStr) : Prop := ∀ c ∈ s, c ≠ ':' ∧ ¬ c.isWhitespace

/-- A well-formed key-value pair: both components clean. -/
def goodPair (p : PyStr × PyStr) : Prop := clean p.1 ∧ clean p.2

/-- The token text of a key-value pair. -/
def tokOf (p : PyStr × PyStr) : PyStr := p.1 ++ ':' :: p.2

/-- A configuration string assembled from tokens with single spaces between
them. -/
def strOfToks : List PyStr → PyStr
  | [] => []
  | [t] => t
  | t :: t₂ :: ts => t ++ ' ' :: strOfToks (t₂ :: ts)

/-- A configuration string assembled from key-value pairs. -/
def strOfPairs (ps : List (PyStr × PyStr)) : PyStr := strOfToks (ps.map tokOf)

/-- The dict built by iterating Python dict assignment over a pair list. -/
def parsePairs (ps : List (PyStr × PyStr)) : PyDict :=
  ps.foldl (fun d p => dictSet d p.1 p.2) []

theorem pySplitSep_no_sep (sep : Char) (s : PyStr) (h : sep ∉ s) :
    pySplitSep sep s = [s] := by
  induction s with
  | nil => rfl
  | cons c rest ih =>
    simp only [List.mem_cons, not_or] at h
    have hc : ¬ c = sep := fun e => h.1 e.symm
    simp only [pySplitSep, if_neg hc, ih h.2]

theorem pySplitSep_append (sep : Char) (a b : PyStr) (h : sep ∉ a) :
    pySplitSep sep (a ++ sep :: b) = a :: pySplitSep sep b := by
  induction a with
  | nil => simp [pySplitSep]
  | cons c a₂ ih =>
    simp only [List.mem_cons, not_or] at h
    have hc : ¬ c = sep := fun e => h.1 e.symm
    simp only [List.cons_append, pySplitSep, List.append_eq, if_neg hc, ih h.2]

theorem pySplitSep_tokOf (p : PyStr × PyStr) (hk : ':' ∉ p.1) (hv : ':' ∉ p.2) :
    pySplitSep ':' (tokOf p) = [p.1, p.2] := by
  rw [tokOf, pySplitSep_append ':' p.1 p.2 hk, pySplitSep_no_sep ':' p.2 hv]

theorem goodTok_tokOf (p : PyStr × PyStr) (h : goodPair p) : goodTok (tokOf p) := by
  constructor
  · simp [tokOf]
  · intro c hc
    rw [tokOf] at hc
    rcases List.mem_append.mp hc with h₁ | h₂
    · exact (h.1 c h₁).2
    · rcases List.mem_cons.mp h₂ with rfl | h₃
      · decide
      · exact (h.2 c h₃).2

theorem clean_not_colon_mem (s : PyStr) (h : clean s) : ':' ∉ s :=
  fun hm => (h ':' hm).1 rfl

theorem not_ws_ne_space {c : Char} (h : ¬ c.isWhitespace) : c ≠ ' ' :=
  fun e => h (by rw [e]; decide)

theorem strOfToks_head (toks : List PyStr) (hne : toks ≠ [])
    (hg : ∀ t ∈ toks, goodTok t) :
    ∃ c s, strOfToks toks = c :: s ∧ ¬ c.isWhitespace := by
  match toks with
  | [t] =>
    have ht := hg t (List.mem_cons_self t [])
    cases h : t with
    | nil => exact absurd h ht.1
    | cons c s =>
      exact ⟨c, s, by simp [strOfToks, h],
        ht.2 c (h ▸ List.mem_cons_self c s)⟩
  | t :: t₂ :: ts =>
    have ht := hg t (List.mem_cons_self t (t₂ :: ts))
    cases h : t with
    | nil => exact absurd h ht.1
    | cons c s =>
      refine ⟨c, s ++ ' ' :: strOfToks (t₂ :: ts), ?_,
        ht.2 c (h ▸ List.mem_cons_self c s)⟩
      simp [strOfToks, h]

theorem strOfToks_last (toks : List PyStr) (hne : toks ≠ [])
    (hg : ∀ t ∈ toks, goodTok t) :
    ∃ c s, strOfToks toks = s ++ [c] ∧ ¬ c.isWhitespace := by
  induction toks with
  | nil => exact absurd rfl hne
  | cons t ts ih =>
    cases ts with
    | nil =>
      have ht := hg t (List.mem_cons_self t [])
      rcases List.eq_nil_or_concat t with h | ⟨s, c, h⟩
      · exact absurd h ht.1
      · rw [List.concat_eq_append] at h
        refine ⟨c, s, by simp [strOfToks, h], ht.2 c ?_⟩
        rw [h]
        exact List.mem_append_right s (List.mem_cons_self c [])
    | cons t₂ ts₂ =>
      obtain ⟨c, s, hcs, hc⟩ := ih (List.cons_ne_nil t₂ ts₂)
        (fun u hu => hg u (List.mem_cons_of_mem t hu))
      refine ⟨c, t ++ ' ' :: s, ?_, hc⟩
      simp [strOfToks, hcs]

theorem pyStrip_strOfToks (toks : List PyStr) (hne : toks ≠ [])
    (hg : ∀ t ∈ toks, goodTok t) :
    pyStrip (strOfToks toks) = strOfToks toks := by
  obtain ⟨c, s, hcs, hc⟩ := strOfToks_head toks hne hg
  obtain ⟨c₂, s₂, hcs₂, hc₂⟩ := strOfToks_last toks hne hg
  have h₁ : (strOfToks toks).dropWhile Char.isWhitespace = strOfToks toks := by
    rw [hcs, List.dropWhile_cons, if_neg hc]
  have h₂ : ((strOfToks toks).reverse).dropWhile Char.isWhitespace
      = (strOfToks toks).reverse := by
    rw [hcs₂, List.reverse_append]
    simp only [List.reverse_cons, List.reverse_nil, List.nil_append,
      List.singleton_append]
    rw [List.dropWhile_cons, if_neg hc₂]
  rw [pyStrip, h₁, h₂, List.reverse_reverse]

theorem pySplitSep_strOfToks (toks : List PyStr) (hne : toks ≠ [])
    (hsp : ∀ t ∈ toks, ' ' ∉ t) :
    pySplitSep ' ' (strOfToks toks) = toks := by
  induction toks with
  | nil => exact absurd rfl hne
  | cons t ts ih =>
    cases ts with
    | nil => exact pySplitSep_no_sep ' ' t (hsp t (List.mem_cons_self t []))
    | cons t₂ ts₂ =>
      have h : strOfToks (t :: t₂ :: ts₂) = t ++ ' ' :: strOfToks (t₂ :: ts₂) := rfl
      rw [h, pySplitSep_append ' ' t _ (hsp t (List.mem_cons_self t (t₂ :: ts₂))),
        ih (List.cons_ne_nil t₂ ts₂) (fun u hu => hsp u (List.mem_cons_of_mem t hu))]

theorem tokOf_head (p : PyStr × PyStr) (hp : goodPair p) :
    ∃ c s, tokOf p = c :: s ∧ c ≠ ' ' := by
  cases h : p.1 with
  | nil => exact ⟨':', p.2, by simp [tokOf, h], by decide⟩
  | cons a t =>
    refine ⟨a, t ++ ':' :: p.2, by simp [tokOf, h], ?_⟩
    exact not_ws_ne_space (hp.1 a (h ▸ List.mem_cons_self a t)).2

theorem parseLoop_cons_ok (s : PyStr) (rest : List PyStr) (d : PyDict)
    (c : Char) (s₂ : PyStr) (hs : s = c :: s₂) (hc : c ≠ ' ')
    (k v : PyStr) (hsplit : pySplitSep ':' s = [k, v]) :
    parseLoop (s :: rest) d = parseLoop rest (dictSet d k v) := by
  subst hs
  simp only [parseLoop, if_neg hc, hsplit]

theorem parseLoop_cons_err (s : PyStr) (rest : List PyStr) (d : PyDict)
    (c : Char) (s₂ : PyStr) (hs : s = c :: s₂) (hc : c ≠ ' ')
    (hsplit : (pySplitSep ':' s).length ≠ 2) :
    parseLoop (s :: rest) d = .error .valueError := by
  subst hs
  rcases h : pySplitSep ':' (c :: s₂) with _ | ⟨k, _ | ⟨v, _ | _⟩⟩
  · simp only [parseLoop, if_neg hc, h]
  · simp only [parseLoop, if_neg hc, h]
  · exact absurd (by rw [h]; rfl) hsplit
  · simp only [parseLoop, if_neg hc, h]

theorem parseLoop_pairs (ps : List (PyStr × PyStr)) (hg : ∀ p ∈ ps, goodPair p) :
    ∀ d, parseLoop (ps.map tokOf) d
      = .ok (ps.foldl (fun d p => dictSet d p.1 p.2) d) := by
  induction ps with
  | nil => intro d; rfl
  | cons p ps ih =>
    intro d
    have hp := hg p (List.mem_cons_self p ps)
    obtain ⟨c, s, hcs, hc⟩ := tokOf_head p hp
    rw [List.map_cons,
      parseLoop_cons_ok (tokOf p) (ps.map tokOf) d c s hcs hc p.1 p.2
        (pySplitSep_tokOf p (clean_not_colon_mem p.1 hp.1)
          (clean_not_colon_mem p.2 hp.2)),
      List.foldl_cons]
    exact ih (fun q hq => hg q (List.mem_cons_of_mem p hq)) (dictSet d p.1 p.2)

theorem parseLoop_err (toks : List PyStr) (hg : ∀ t ∈ toks, goodTok t)
    (hbad : ∃ t ∈ toks, (pySplitSep ':' t).length ≠ 2) :
    ∀ d, parseLoop toks d = .error .valueError := by
  induction toks with
  | nil =>
    obtain ⟨t, ht, _⟩ := hbad
    exact absurd ht (List.not_mem_nil t)
  | cons t ts ih =>
    intro d
    have hgt := hg t (List.mem_cons_self t ts)
    have hc : ∃ c s, t = c :: s ∧ c ≠ ' ' := by
      cases h : t with
      | nil => exact absurd h hgt.1
      | cons c s =>
        exact ⟨c, s, rfl, not_ws_ne_space (hgt.2 c (h ▸ List.mem_cons_self c s))⟩
    obtain ⟨c, s, hts, hcs⟩ := hc
    by_cases h₂ : (pySplitSep ':' t).length = 2
    · rcases hsp : pySplitSep ':' t with _ | ⟨k, _ | ⟨v, _ | _⟩⟩ <;>
        rw [hsp] at h₂ <;> simp at h₂
      rw [parseLoop_cons_ok t ts d c s hts hcs k v hsp]
      have hbad₂ : ∃ u ∈ ts, (pySplitSep ':' u).length ≠ 2 := by
        obtain ⟨u, hu, hlen⟩ := hbad
        rcases List.mem_cons.mp hu with rfl | hu₂
        · exact absurd (by rw [hsp]; rfl) hlen
        · exact ⟨u, hu₂, hlen⟩
      exact ih (fun u hu => hg u (List.mem_cons_of_mem t hu)) hbad₂ _
    · exact parseLoop_cons_err t ts d c s hts hcs h₂

theorem parseConfig_strOfToks (toks : List PyStr) (hne : toks ≠ [])
    (hg : ∀ t ∈ toks, goodTok t) :
    parseConfig (some (strOfToks toks))
      = (parseLoop toks []).map ParseResult.dict := by
  have hsp : ∀ t ∈ toks, ' ' ∉ t :=
    fun t ht hm => (hg t ht).2 ' ' hm (by decide)
  show (parseLoop (pySplitSep ' ' (pyStrip (strOfToks toks))) []).map
      ParseResult.dict = _
  rw [pyStrip_strOfToks toks hne hg, pySplitSep_strOfToks toks hne hsp]

theorem parseConfig_strOfPairs (ps : List (PyStr × PyStr)) (hne : ps ≠ [])
    (hg : ∀ p ∈ ps, goodPair p) :
    parseConfig (some (strOfPairs ps)) = .ok (.dict (parsePairs ps)) := by
  have hne₂ : ps.map tokOf ≠ [] := by
    simp only [ne_eq, List.map_eq_nil_iff]
    exact hne
  have hg₂ : ∀ t ∈ ps.map tokOf, goodTok t := by
    intro t ht
    obtain ⟨p, hp, rfl⟩ := List.mem_map.mp ht
    exact goodTok_tokOf p (hg p hp)
  rw [strOfPairs, parseConfig_strOfToks (ps.map tokOf) hne₂ hg₂,
    parseLoop_pairs ps hg []]
  rfl

theorem dictGet_eq_none (d : PyDict) (k : PyStr) :
    dictGet d k = none ↔ k ∉ dictKeys d := by
  constructor
  · intro h hk
    obtain ⟨p, hp, hpe⟩ := List.mem_map.mp hk
    have := List.find?_eq_none.mp (Option.map_eq_none'.mp h) p hp
    rw [hpe] at this
    simp at this
  · intro h
    rw [dictGet, Option.map_eq_none', List.find?_eq_none]
    intro p hp
    simp only [beq_eq_false_iff_ne, ne_eq, Bool.not_eq_true]
    exact fun e => h (List.mem_map.mpr ⟨p, hp, e⟩)

theorem dictGet_cons_eq (q : PyStr × PyStr) (d : PyDict) (k : PyStr)
    (h : q.1 = k) : dictGet (q :: d) k = some q.2 := by
  simp [dictGet, h]

theorem dictGet_cons_ne (q : PyStr × PyStr) (d : PyDict) (k : PyStr)
    (h : ¬ q.1 = k) : dictGet (q :: d) k = dictGet d k := by
  simp [dictGet, h]

theorem dictGet_isSome_of_mem (d : PyDict) (k : PyStr) (h : k ∈ dictKeys d) :
    ∃ w, dictGet d k = some w := by
  cases hg : dictGet d k with
  | none => exact absurd h ((dictGet_eq_none d k).mp hg)
  | some w => exact ⟨w, rfl⟩

theorem dictGet_eq_some_iff (d : PyDict) (hnd : (dictKeys d).Nodup) (k v : PyStr) :
    dictGet d k = some v ↔ (k, v) ∈ d := by
  induction d with
  | nil => simp [dictGet]
  | cons q d ih =>
    rw [dictKeys, List.map_cons, List.nodup_cons] at hnd
    by_cases hq : q.1 = k
    · rw [dictGet_cons_eq q d k hq]
      constructor
      · intro h
        have hv : v = q.2 := (Option.some.injEq _ _ ▸ h).symm
        have : (k, v) = q := by
          rw [Prod.ext_iff]
          exact ⟨hq.symm, hv⟩
        rw [this]
        exact List.mem_cons_self q d
      · intro h
        rcases List.mem_cons.mp h with he | hm
        · rw [← he]
        · exact absurd (List.mem_map.mpr ⟨(k, v), hm, hq.symm⟩) hnd.1
    · rw [dictGet_cons_ne q d k hq, ih hnd.2]
      constructor
      · exact fun h => List.mem_cons_of_mem q h
      · intro h
        rcases List.mem_cons.mp h with he | hm
        · exact absurd (congrArg Prod.fst he).symm hq
        · exact hm

theorem dict_any_iff_mem (d : PyDict) (k : PyStr) :
    d.any (fun p => p.1 == k) = true ↔ k ∈ dictKeys d := by
  rw [List.any_eq_true, dictKeys]
  constructor
  · rintro ⟨p, hp, he⟩
    exact List.mem_map.mpr ⟨p, hp, beq_iff_eq.mp he⟩
  · rintro hm
    obtain ⟨p, hp, he⟩ := List.mem_map.mp hm
    exact ⟨p, hp, beq_iff_eq.mpr he⟩

theorem dictSet_of_not_mem (d : PyDict) (k v : PyStr) (h : k ∉ dictKeys d) :
    dictSet d k v = d ++ [(k, v)] := by
  rw [dictSet, if_neg]
  exact fun ha => h ((dict_any_iff_mem d k).mp ha)

theorem dictGet_append (d e : PyDict) (k : PyStr) :
    dictGet (d ++ e) k
      = match dictGet d k with
        | some v => some v
        | none => dictGet e k := by
  induction d with
  | nil => simp [dictGet]
  | cons q d ih =>
    by_cases hq : q.1 = k
    · rw [List.cons_append, dictGet_cons_eq q (d ++ e) k hq,
        dictGet_cons_eq q d k hq]
    · rw [List.cons_append, dictGet_cons_ne q (d ++ e) k hq,
        dictGet_cons_ne q d k hq, ih]

theorem dictGet_map_update (d : PyDict) (k v k₂ : PyStr) :
    dictGet (d.map (fun p => if p.1 == k then (p.1, v) else p)) k₂
      = (dictGet d k₂).map (fun w => if k₂ == k then v else w) := by
  induction d with
  | nil => rfl
  | cons q d ih =>
    have hfst : (if q.1 == k then (q.1, v) else q).1 = q.1 := by
      by_cases h : (q.1 == k) = true <;> simp [h]
    by_cases hq : q.1 = k₂
    · rw [List.map_cons,
        dictGet_cons_eq (if q.1 == k then (q.1, v) else q) _ k₂ (hfst.trans hq),
        dictGet_cons_eq q d k₂ hq]
      subst hq
      by_cases h : (q.1 == k) = true <;> simp [h]
    · rw [List.map_cons,
        dictGet_cons_ne (if q.1 == k then (q.1, v) else q) _ k₂
          (fun e => hq (hfst.symm.trans e)),
        dictGet_cons_ne q d k₂ hq, ih]

theorem dictGet_dictSet (d : PyDict) (k v k₂ : PyStr) :
    dictGet (dictSet d k v) k₂ = if k₂ = k then some v else dictGet d k₂ := by
  by_cases hmem : d.any (fun p => p.1 == k) = true
  · rw [dictSet, if_pos hmem, dictGet_map_update]
    by_cases hk : k₂ = k
    · subst hk
      obtain ⟨w, hw⟩ := dictGet_isSome_of_mem d k₂ ((dict_any_iff_mem d k₂).mp hmem)
      rw [hw, if_pos rfl]
      simp
    · rw [if_neg hk]
      cases dictGet d k₂ <;> simp [hk]
  · rw [dictSet, if_neg hmem, dictGet_append]
    by_cases hk : k₂ = k
    · subst hk
      have hnone : dictGet d k₂ = none :=
        (dictGet_eq_none d k₂).mpr (fun hm => hmem ((dict_any_iff_mem d k₂).mpr hm))
      rw [hnone, if_pos rfl]
      simp [dictGet]
    · rw [if_neg hk]
      cases hg : dictGet d k₂ with
      | none => simp [dictGet, Ne.symm hk]
      | some w => rfl

theorem foldl_dictSet_append (ps : List (PyStr × PyStr)) :
    ∀ d : PyDict, (∀ p ∈ ps, p.1 ∉ dictKeys d) → (ps.map Prod.fst).Nodup →
      ps.foldl (fun d p => dictSet d p.1 p.2) d = d ++ ps := by
  induction ps with
  | nil => intro d _ _; simp
  | cons p ps ih =>
    intro d hd hnd
    rw [List.map_cons, List.nodup_cons] at hnd
    rw [List.foldl_cons,
      dictSet_of_not_mem d p.1 p.2 (hd p (List.mem_cons_self p ps)),
      ih (d ++ [(p.1, p.2)]) ?_ hnd.2]
    · simp
    · intro q hq
      rw [dictKeys, List.map_append]
      intro hm
      rcases List.mem_append.mp hm with h₁ | h₂
      · exact hd q (List.mem_cons_of_mem p hq) h₁
      · have : q.1 = p.1 := by simpa using h₂
        exact hnd.1 (this ▸ List.mem_map.mpr ⟨q, hq, rfl⟩)

theorem parsePairs_nodup (ps : List (PyStr × PyStr))
    (hnd : (ps.map Prod.fst).Nodup) : parsePairs ps = ps := by
  rw [parsePairs, foldl_dictSet_append ps [] (by simp [dictKeys]) hnd,
    List.nil_append]

theorem dictGet_foldl_of_not_mem (ps : List (PyStr × PyStr)) (k : PyStr)
    (h : ∀ p ∈ ps, p.1 ≠ k) :
    ∀ d : PyDict, dictGet (ps.foldl (fun d p => dictSet d p.1 p.2) d) k
      = dictGet d k := by
  induction ps with
  | nil => intro d; rfl
  | cons p ps ih =>
    intro d
    rw [List.foldl_cons, ih (fun q hq => h q (List.mem_cons_of_mem p hq)),
      dictGet_dictSet, if_neg]
    exact fun e => h p (List.mem_cons_self p ps) e.symm

theorem dictKeys_map_update (d : PyDict) (k v : PyStr) :
    dictKeys (d.map (fun p => if p.1 == k then (p.1, v) else p)) = dictKeys d := by
  rw [dictKeys, dictKeys, List.map_map]
  apply List.map_congr_left
  intro p _
  by_cases h : p.1 = k <;> simp [h]

theorem mem_dictKeys_dictSet_self (d : PyDict) (k v : PyStr) :
    k ∈ dictKeys (dictSet d k v) := by
  by_cases h : d.any (fun p => p.1 == k) = true
  · rw [dictSet, if_pos h, dictKeys_map_update]
    exact (dict_any_iff_mem d k).mp h
  · rw [dictSet, if_neg h, dictKeys, List.map_append]
    exact List.mem_append_right _ (by simp)

theorem mem_dictKeys_dictSet_of_mem (d : PyDict) (k v k₂ : PyStr)
    (h : k₂ ∈ dictKeys d) : k₂ ∈ dictKeys (dictSet d k v) := by
  by_cases ha : d.any (fun p => p.1 == k) = true
  · rw [dictSet, if_pos ha, dictKeys_map_update]
    exact h
  · rw [dictSet, if_neg ha, dictKeys, List.map_append]
    exact List.mem_append_left _ h

theorem mem_dictKeys_foldl_of_mem (ps : List (PyStr × PyStr)) (k : PyStr) :
    ∀ d : PyDict, k ∈ dictKeys d →
      k ∈ dictKeys (ps.foldl (fun d p => dictSet d p.1 p.2) d) := by
  induction ps with
  | nil => exact fun d h => h
  | cons p ps ih =>
    intro d h
    rw [List.foldl_cons]
    exact ih (dictSet d p.1 p.2) (mem_dictKeys_dictSet_of_mem d p.1 p.2 k h)

theorem mem_dictKeys_foldl (ps : List (PyStr × PyStr)) :
    ∀ d : PyDict, ∀ p ∈ ps,
      p.1 ∈ dictKeys (ps.foldl (fun d p => dictSet d p.1 p.2) d) := by
  induction ps with
  | nil =>
    intro d p hp
    exact absurd hp (List.not_mem_nil p)
  | cons q ps ih =>
    intro d p hp
    rw [List.foldl_cons]
    rcases List.mem_cons.mp hp with rfl | hm
    · exact mem_dictKeys_foldl_of_mem ps p.1 (dictSet d p.1 p.2)
        (mem_dictKeys_dictSet_self d p.1 p.2)
    · exact ih (dictSet d q.1 q.2) p hm

instance (s : PyStr) : Decidable (clean s) :=
  inferInstanceAs (Decidable (∀ c ∈ s, c ≠ ':' ∧ ¬ c.isWhitespace))

instance (t : PyStr) : Decidable (goodTok t) :=
  inferInstanceAs (Decidable (t ≠ [] ∧ ∀ c ∈ t, ¬ c.isWhitespace))

instance (p : PyStr × PyStr) : Decidable (goodPair p) :=
  inferInstanceAs (Decidable (clean p.1 ∧ clean p.2))

instance (d₁ d₂ : PyDict) : Decidable (dictEquiv d₁ d₂) :=
  inferInstanceAs (Decidable ((∀ p ∈ d₁, dictGet d₂ p.1 = some p.2) ∧
    (∀ p ∈ d₂, dictGet d₁ p.1 = some p.2)))

/-- C1: The specification claims parseConfig of an absent value and of the
empty string both return an empty mapping and never fail. The code instead
returns the empty string object, not a mapping, for the absent value (after
the non-fatal warning), and raises IndexError for the empty string, because
splitting the empty string on spaces yields one empty fragment and the loop
indexes its first character. -/
theorem claim_C1_none_empty_behavior :
    parseConfig none = .ok (.str []) ∧ parseConfigWarns none = true ∧
      parseConfig (some (pystr "")) = .error .indexError :=
  ⟨rfl, rfl, rfl⟩

/-- C2: For every well-formed configuration string of single-space separated
key-colon-value tokens with distinct keys and colon-free, whitespace-free key
and value texts, parseConfig returns a mapping whose key list is exactly the
token key list, binding each key to its value, with no extra or missing
entries. -/
theorem claim_C2_wellformed_exact (ps : List (PyStr × PyStr)) (hne : ps ≠ [])
    (hg : ∀ p ∈ ps, goodPair p) (hnd : (ps.map Prod.fst).Nodup) :
    ∃ d, parseConfig (some (strOfPairs ps)) = .ok (.dict d) ∧
      dictKeys d = ps.map Prod.fst ∧
      (∀ p ∈ ps, dictGet d p.1 = some p.2) ∧
      (∀ k, k ∉ ps.map Prod.fst → dictGet d k = none) := by
  refine ⟨parsePairs ps, parseConfig_strOfPairs ps hne hg, ?_, ?_, ?_⟩
  · rw [parsePairs_nodup ps hnd]
    rfl
  · intro p hp
    rw [parsePairs_nodup ps hnd]
    exact (dictGet_eq_some_iff ps hnd p.1 p.2).mpr hp
  · intro k hk
    rw [parsePairs_nodup ps hnd]
    exact (dictGet_eq_none ps k).mpr hk

theorem claim_C2_witness :
    (([(pystr "ch", pystr "1"), (pystr "cou", pystr "dc")] :
        List (PyStr × PyStr)) ≠ []) ∧
    (∀ p ∈ ([(pystr "ch", pystr "1"), (pystr "cou", pystr "dc")] :
        List (PyStr × PyStr)), goodPair p) ∧
    (([(pystr "ch", pystr "1"), (pystr "cou", pystr "dc")].map
        (Prod.fst : PyStr × PyStr → PyStr)).Nodup) ∧
    (∃ d, parseConfig (some (strOfPairs
        [(pystr "ch", pystr "1"), (pystr "cou", pystr "dc")])) = .ok (.dict d) ∧
      dictKeys d = [(pystr "ch", pystr "1"), (pystr "cou", pystr "dc")].map
        Prod.fst ∧
      (∀ p ∈ ([(pystr "ch", pystr "1"), (pystr "cou", pystr "dc")] :
          List (PyStr × PyStr)), dictGet d p.1 = some p.2) ∧
      (∀ k, k ∉ [(pystr "ch", pystr "1"), (pystr "cou", pystr "dc")].map
          Prod.fst → dictGet d k = none)) :=
  ⟨by decide, by decide, by decide,
    claim_C2_wellformed_exact _ (by decide) (by decide) (by decide)⟩

/-- C3: Parsing is order-independent: two well-formed configuration strings
assembled from permutations of the same distinct-key pair list parse to
mappings that are equal as mappings. -/
theorem claim_C3_order_independent (ps₁ ps₂ : List (PyStr × PyStr))
    (hperm : ps₁.Perm ps₂) (hne : ps₁ ≠ [])
    (hg : ∀ p ∈ ps₁, goodPair p) (hnd : (ps₁.map Prod.fst).Nodup) :
    ∃ d₁ d₂, parseConfig (some (strOfPairs ps₁)) = .ok (.dict d₁) ∧
      parseConfig (some (strOfPairs ps₂)) = .ok (.dict d₂) ∧
      dictEquiv d₁ d₂ := by
  have hne₂ : ps₂ ≠ [] := by
    intro h
    rw [h] at hperm
    exact hne hperm.eq_nil
  have hg₂ : ∀ p ∈ ps₂, goodPair p := fun p hp => hg p (hperm.mem_iff.mpr hp)
  have hnd₂ : (ps₂.map Prod.fst).Nodup := ((hperm.map Prod.fst).nodup_iff).mp hnd
  refine ⟨parsePairs ps₁, parsePairs ps₂, parseConfig_strOfPairs ps₁ hne hg,
    parseConfig_strOfPairs ps₂ hne₂ hg₂, ?_⟩
  rw [parsePairs_nodup ps₁ hnd, parsePairs_nodup ps₂ hnd₂]
  exact ⟨fun p hp => (dictGet_eq_some_iff ps₂ hnd₂ p.1 p.2).mpr
      (hperm.mem_iff.mp hp),
    fun p hp => (dictGet_eq_some_iff ps₁ hnd p.1 p.2).mpr
      (hperm.mem_iff.mpr hp)⟩

theorem claim_C3_witness :
    (([(pystr "k1", pystr "v1"), (pystr "k2", pystr "v2")] :
        List (PyStr × PyStr)).Perm
      [(pystr "k2", pystr "v2"), (pystr "k1", pystr "v1")]) ∧
    (([(pystr "k1", pystr "v1"), (pystr "k2", pystr "v2")] :
        List (PyStr × PyStr)) ≠ []) ∧
    (∀ p ∈ ([(pystr "k1", pystr "v1"), (pystr "k2", pystr "v2")] :
        List (PyStr × PyStr)), goodPair p) ∧
    (([(pystr "k1", pystr "v1"), (pystr "k2", pystr "v2")].map
        (Prod.fst : PyStr × PyStr → PyStr)).Nodup) ∧
    (∃ d₁ d₂, parseConfig (some (strOfPairs
        [(pystr "k1", pystr "v1"), (pystr "k2", pystr "v2")])) = .ok (.dict d₁) ∧
      parseConfig (some (strOfPairs
        [(pystr "k2", pystr "v2"), (pystr "k1", pystr "v1")])) = .ok (.dict d₂) ∧
      dictEquiv d₁ d₂) :=
  ⟨by decide, by decide, by decide, by decide,
    claim_C3_order_independent _ _ (by decide) (by decide) (by decide)
      (by decide)⟩

/-- C4: A well-formed configuration string one of whose tokens contains no
colon makes parseConfig fail: the unpacking of the one-element split raises
the malformed-token failure (a ValueError in the code) instead of returning
a mapping. -/
theorem claim_C4_missing_colon (toks : List PyStr) (hne : toks ≠ [])
    (hg : ∀ t ∈ toks, goodTok t) (hbad : ∃ t ∈ toks, ':' ∉ t) :
    parseConfig (some (strOfToks toks)) = .error .valueError := by
  have hbad₂ : ∃ t ∈ toks, (pySplitSep ':' t).length ≠ 2 := by
    obtain ⟨t, ht, hc⟩ := hbad
    refine ⟨t, ht, ?_⟩
    rw [pySplitSep_no_sep ':' t hc]
    simp
  rw [parseConfig_strOfToks toks hne hg, parseLoop_err toks hg hbad₂ []]
  rfl

theorem claim_C4_witness :
    (([pystr "ch1"] : List PyStr) ≠ []) ∧
    (∀ t ∈ ([pystr "ch1"] : List PyStr), goodTok t) ∧
    (∃ t ∈ ([pystr "ch1"] : List PyStr), ':' ∉ t) ∧
    parseConfig (some (strOfToks [pystr "ch1"])) = .error .valueError :=
  ⟨by decide, by decide, by decide,
    claim_C4_missing_colon _ (by decide) (by decide) (by decide)⟩

/-- C5 counterexample: the claim says a token with more than one colon is
split once on the first colon, so the token exp:1:25E6 would map the key exp
to the value 1:25E6. The code splits on every colon and the three-element
unpacking raises ValueError, so parseConfig fails on this input instead of
returning that mapping. -/
theorem claim_C5_counterexample :
    parseConfig (some (pystr "exp:1:25E6")) = .error .valueError ∧
      (Except.error PyErr.valueError : Except PyErr ParseResult) ≠
        .ok (.dict [(pystr "exp", pystr "1:25E6")]) :=
  ⟨rfl, fun h => Except.noConfusion h⟩

/-- C5 amended: a token with exactly one colon is split at that colon into
key and value, the value being preserved verbatim; a token with two or more
colons makes parseConfig fail with the unpacking ValueError rather than being
split once on the first colon. -/
theorem claim_C5_single_colon_only (k v₁ v₂ : PyStr) (hk : clean k)
    (hv₁ : clean v₁) (hv₂ : clean v₂) :
    parseConfig (some (k ++ ':' :: v₁)) = .ok (.dict [(k, v₁)]) ∧
      parseConfig (some (k ++ ':' :: v₁ ++ ':' :: v₂)) = .error .valueError := by
  constructor
  · have hg : ∀ p ∈ [(k, v₁)], goodPair p := by
      intro p hp
      rw [List.mem_singleton] at hp
      rw [hp]
      exact ⟨hk, hv₁⟩
    have h := parseConfig_strOfPairs [(k, v₁)] (by simp) hg
    have hs : strOfPairs [(k, v₁)] = k ++ ':' :: v₁ := rfl
    have hd : parsePairs [(k, v₁)] = [(k, v₁)] :=
      parsePairs_nodup [(k, v₁)] (by simp)
    rw [hs, hd] at h
    exact h
  · have hne : ([k ++ ':' :: v₁ ++ ':' :: v₂] : List PyStr) ≠ [] := by simp
    have hg : ∀ t ∈ [k ++ ':' :: v₁ ++ ':' :: v₂], goodTok t := by
      intro t ht
      rw [List.mem_singleton] at ht
      subst ht
      refine ⟨by simp, ?_⟩
      intro c hc
      rcases List.mem_append.mp hc with h₁ | h₂
      · rcases List.mem_append.mp h₁ with h₃ | h₄
        · exact (hk c h₃).2
        · rcases List.mem_cons.mp h₄ with rfl | h₅
          · decide
          · exact (hv₁ c h₅).2
      · rcases List.mem_cons.mp h₂ with rfl | h₆
        · decide
        · exact (hv₂ c h₆).2
    have hsplit : pySplitSep ':' (k ++ ':' :: v₁ ++ ':' :: v₂) = [k, v₁, v₂] := by
      rw [List.append_assoc, List.cons_append,
        pySplitSep_append ':' k _ (clean_not_colon_mem k hk),
        pySplitSep_append ':' v₁ v₂ (clean_not_colon_mem v₁ hv₁),
        pySplitSep_no_sep ':' v₂ (clean_not_colon_mem v₂ hv₂)]
    have hbad : ∃ t ∈ [k ++ ':' :: v₁ ++ ':' :: v₂],
        (pySplitSep ':' t).length ≠ 2 := by
      refine ⟨k ++ ':' :: v₁ ++ ':' :: v₂, List.mem_singleton.mpr rfl, ?_⟩
      rw [hsplit]
      simp
    have hstr : strOfToks [k ++ ':' :: v₁ ++ ':' :: v₂]
        = k ++ ':' :: v₁ ++ ':' :: v₂ := rfl
    rw [← hstr, parseConfig_strOfToks _ hne hg, parseLoop_err _ hg hbad []]
    rfl

theorem claim_C5_witness :
    clean (pystr "exp") ∧ clean (pystr "1") ∧ clean (pystr "25E6") ∧
    (parseConfig (some (pystr "exp" ++ ':' :: pystr "1"))
        = .ok (.dict [(pystr "exp", pystr "1")]) ∧
      parseConfig (some (pystr "exp" ++ ':' :: pystr "1" ++ ':' :: pystr "25E6"))
        = .error .valueError) :=
  ⟨by decide, by decide, by decide,
    claim_C5_single_colon_only _ _ _ (by decide) (by decide) (by decide)⟩

/-- C6: The specification claims empty fragments produced by consecutive
spaces are discarded, so a doubly spaced string parses like its single-spaced
form. In the code the guard comparing s[0] to a space never fires (fragments
of a space-split cannot start with a space), and the empty fragment produced
by the double space makes s[0] raise IndexError, so the doubly spaced string
fails while the single-spaced one parses. -/
theorem claim_C6_consecutive_spaces :
    parseConfig (some (pystr "k1:v1 k2:v2")) =
      .ok (.dict [(pystr "k1", pystr "v1"), (pystr "k2", pystr "v2")]) ∧
      parseConfig (some (pystr "k1:v1  k2:v2")) = .error .indexError :=
  ⟨rfl, rfl⟩

/-- C7: parseConfig filters nothing out: every key of a well-formed
configuration string, recognized by a schema or not, appears among the keys
of the returned mapping. -/
theorem claim_C7_no_filtering (ps : List (PyStr × PyStr)) (hne : ps ≠ [])
    (hg : ∀ p ∈ ps, goodPair p) :
    ∃ d, parseConfig (some (strOfPairs ps)) = .ok (.dict d) ∧
      ∀ p ∈ ps, p.1 ∈ dictKeys d :=
  ⟨parsePairs ps, parseConfig_strOfPairs ps hne hg,
    fun p hp => mem_dictKeys_foldl ps [] p hp⟩

theorem claim_C7_witness :
    (([(pystr "bogus", pystr "7"), (pystr "ch", pystr "1")] :
        List (PyStr × PyStr)) ≠ []) ∧
    (∀ p ∈ ([(pystr "bogus", pystr "7"), (pystr "ch", pystr "1")] :
        List (PyStr × PyStr)), goodPair p) ∧
    (∃ d, parseConfig (some (strOfPairs
        [(pystr "bogus", pystr "7"), (pystr "ch", pystr "1")])) = .ok (.dict d) ∧
      ∀ p ∈ ([(pystr "bogus", pystr "7"), (pystr "ch", pystr "1")] :
          List (PyStr × PyStr)), p.1 ∈ dictKeys d) :=
  ⟨by decide, by decide, claim_C7_no_filtering _ (by decide) (by decide)⟩

/-- C8: A freshly constructed session carries the documented defaults: two
channels, one sample, a one-thousand-millisecond inter-sample interval, the
debug flag off, and no saved trigger configuration. -/
theorem claim_C8_session_defaults :
    GenCounter.new._nChannels = 2 ∧ GenCounter.new._samples = 1 ∧
      GenCounter.new._interval = 1000 ∧ GenCounter.new._dbg = false ∧
      GenCounter.new._trigcfg = none :=
  ⟨rfl, rfl, rfl, rfl, rfl⟩

/-- C9: Duplicate keys resolve last-wins: when a key occurs in several
well-formed tokens, the returned mapping binds it to the value of its
rightmost occurrence, because the later dict assignment overwrites the
earlier one. -/
theorem claim_C9_last_wins (ps₁ ps₂ : List (PyStr × PyStr)) (k v : PyStr)
    (hg : ∀ p ∈ ps₁ ++ (k, v) :: ps₂, goodPair p)
    (_hdup : k ∈ ps₁.map Prod.fst) (hlast : k ∉ ps₂.map Prod.fst) :
    ∃ d, parseConfig (some (strOfPairs (ps₁ ++ (k, v) :: ps₂))) = .ok (.dict d) ∧
      dictGet d k = some v := by
  have hne : ps₁ ++ (k, v) :: ps₂ ≠ [] := by simp
  refine ⟨parsePairs (ps₁ ++ (k, v) :: ps₂),
    parseConfig_strOfPairs _ hne hg, ?_⟩
  rw [parsePairs, List.foldl_append, List.foldl_cons,
    dictGet_foldl_of_not_mem ps₂ k
      (fun p hp e => hlast (List.mem_map.mpr ⟨p, hp, e⟩)),
    dictGet_dictSet, if_pos rfl]

theorem claim_C9_witness :
    (∀ p ∈ ([(pystr "ch", pystr "1")] ++ (pystr "ch", pystr "2") :: [] :
        List (PyStr × PyStr)), goodPair p) ∧
    (pystr "ch" ∈ [(pystr "ch", pystr "1")].map
        (Prod.fst : PyStr × PyStr → PyStr)) ∧
    (pystr "ch" ∉ ([] : List (PyStr × PyStr)).map
        (Prod.fst : PyStr × PyStr → PyStr)) ∧
    (∃ d, parseConfig (some (strOfPairs
        ([(pystr "ch", pystr "1")] ++ (pystr "ch", pystr "2") :: [])))
        = .ok (.dict d) ∧
      dictGet d (pystr "ch") = some (pystr "2")) :=
  ⟨by decide, by decide, by decide,
    claim_C9_last_wins _ _ _ _ (by decide) (by decide) (by decide)⟩

/-- C10: parseConfig is read-only with respect to the session: invoked as a
method it leaves every attribute of the session unchanged, and its result is
the same function of the configuration string for every session state. -/
theorem claim_C10_readonly (g g₂ : GenCounter) (cfgstr : Option PyStr) :
    (g.parseConfigM cfgstr).1 = g ∧
      (g.parseConfigM cfgstr).2 = parseConfig cfgstr ∧
      (g.parseConfigM cfgstr).2 = (g₂.parseConfigM cfgstr).2 :=
  ⟨rfl, rfl, rfl⟩

end Gencounter
